import Mathlib

/-! Verification development for the graph algorithms of
`src/python/pants/backend/project_info`: the breadth-first path
enumerator `find_paths_breadth_first` of `paths.py`, and the
reverse-dependency index `map_addresses_to_dependents` plus the
transitive-dependents resolver `find_dependents` of `dependents.py`.

Addresses are modelled by an arbitrary type `α` with decidable
equality.  A Python `dict[Address, ...]` is modelled by an association
list `List (α × List α)`; lookup takes the first matching key, and a
missing key falls back to the empty list, mirroring `d.get(k, [])`.
The `while` loops are written with an explicit fuel argument returning
`Option`: `none` means the fuel ran out before the loop finished, so a
`some` result certifies that the loop terminated by itself. -/

set_option linter.unusedSectionVars false

namespace PantsGraph

variable {α : Type} [DecidableEq α]

/-- The first entry of the association list whose key is `x`. -/
def lookupEntry (m : List (α × List α)) (x : α) : Option (α × List α) :=
  m.find? (fun e => decide (e.1 = x))

/-- `m.get(x, [])`: the value stored for key `x`, or `[]` when `x` is
absent, as in `adjacency_lists.get(target, [])` and
`address_to_dependents.mapping.get(target, FrozenOrderedSet())`. -/
def getAdj (m : List (α × List α)) (x : α) : List α :=
  match lookupEntry m x with
  | some e => e.2
  | none => []

/-- `b` is among the values stored for `a`: a directed edge `a → b`. -/
def hasEdge (m : List (α × List α)) (a b : α) : Prop :=
  b ∈ getAdj m a

instance (m : List (α × List α)) (a b : α) : Decidable (hasEdge m a b) := by
  unfold hasEdge; infer_instance

/-- The `(prev_target, target)` pair computed from `cur_path`:
`cur_path[-2]` (or `None` for a length-1 path) and `cur_path[-1]`. -/
def edgeKey (p : List α) : Option α × Option α :=
  (p.dropLast.getLast?, p.getLast?)

/-- `adjacency_lists.get(target, [])` for `target = cur_path[-1]`; the
empty-path case never occurs during a run (paths in the queue are
nonempty) but keeps the function total. -/
def depsOf (adj : List (α × List α)) (p : List α) : List α :=
  match p.getLast? with
  | some tgt => getAdj adj tgt
  | none => []

/-- The extensions of `cur_path` the `for dep in ...` loop yields:
those with `dep.address == to_target`, in declaration order. -/
def yieldsOf (adj : List (α × List α)) (dest : α) (p : List α) : List (List α) :=
  ((depsOf adj p).filter (fun d => decide (d = dest))).map (fun d => p ++ [d])

/-- The extensions of `cur_path` the `for dep in ...` loop appends to
`to_walk_paths`: those with `dep.address != to_target`, in order. -/
def queuedOf (adj : List (α × List α)) (dest : α) (p : List α) : List (List α) :=
  ((depsOf adj p).filter (fun d => !decide (d = dest))).map (fun d => p ++ [d])

/-- The body of the `while to_walk_paths` loop of
`find_paths_breadth_first` (paths.py lines 66-86), with explicit fuel.
State: the FIFO queue `to_walk_paths` and the set `visited_edges`
(kept as a duplicate-free list).  One fuel unit is spent per dequeue
(and one on the final empty-queue test); `none` means fuel exhausted.
Returns the concatenation of everything the generator yielded, in
yield order, paired with the final visited-edge set. -/
def walkPaths (adj : List (α × List α)) (dest : α) :
    Nat → List (List α) → List (Option α × Option α) →
    Option (List (List α) × List (Option α × Option α))
  | 0, _, _ => none
  | _ + 1, [], visited => some ([], visited)
  | n + 1, curPath :: rest, visited =>
    if edgeKey curPath ∈ visited then
      walkPaths adj dest n rest visited
    else
      (walkPaths adj dest n (rest ++ queuedOf adj dest curPath)
          (edgeKey curPath :: visited)).map
        (fun r => (yieldsOf adj dest curPath ++ r.1, r.2))

/-- `find_paths_breadth_first(adjacency_lists, from_target, to_target)`
(paths.py lines 53-86), fully consumed into the list of yielded paths.
The `from_target == to_target` short-circuit (lines 62-64) happens
before the loop and consumes no fuel. -/
def find_paths_breadth_first (adj : List (α × List α))
    (from_target to_target : α) (fuel : Nat) : Option (List (List α)) :=
  if from_target = to_target then some [[from_target]]
  else (walkPaths adj to_target fuel [[from_target]] []).map Prod.fst

/-! ### Basic rewriting lemmas for `walkPaths` -/

theorem walkPaths_nil (adj : List (α × List α)) (dest : α) (n : Nat)
    (visited : List (Option α × Option α)) :
    walkPaths adj dest (n + 1) [] visited = some ([], visited) := rfl

theorem walkPaths_skip (adj : List (α × List α)) (dest : α) (n : Nat)
    (p : List α) (rest : List (List α)) (visited : List (Option α × Option α))
    (h : edgeKey p ∈ visited) :
    walkPaths adj dest (n + 1) (p :: rest) visited =
      walkPaths adj dest n rest visited := by
  simp [walkPaths, h]

theorem walkPaths_expand (adj : List (α × List α)) (dest : α) (n : Nat)
    (p : List α) (rest : List (List α)) (visited : List (Option α × Option α))
    (h : edgeKey p ∉ visited) :
    walkPaths adj dest (n + 1) (p :: rest) visited =
      (walkPaths adj dest n (rest ++ queuedOf adj dest p)
          (edgeKey p :: visited)).map
        (fun r => (yieldsOf adj dest p ++ r.1, r.2)) := by
  simp [walkPaths, h]

theorem depsOf_concat (adj : List (α × List α)) (q : List α) (u : α) :
    depsOf adj (q ++ [u]) = getAdj adj u := by
  simp [depsOf, List.getLast?_concat]

theorem edgeKey_concat (q : List α) (u : α) :
    edgeKey (q ++ [u]) = (q.getLast?, some u) := by
  simp [edgeKey, List.getLast?_concat, List.dropLast_concat]

theorem mem_yieldsOf {adj : List (α × List α)} {dest : α} {p y : List α} :
    y ∈ yieldsOf adj dest p ↔ dest ∈ depsOf adj p ∧ y = p ++ [dest] := by
  simp only [yieldsOf, List.mem_map, List.mem_filter, decide_eq_true_eq]
  constructor
  · rintro ⟨d, ⟨hd, rfl⟩, rfl⟩
    exact ⟨hd, rfl⟩
  · rintro ⟨hd, rfl⟩
    exact ⟨dest, ⟨hd, rfl⟩, rfl⟩

theorem mem_queuedOf {adj : List (α × List α)} {dest : α} {p y : List α} :
    y ∈ queuedOf adj dest p ↔ ∃ d, d ∈ depsOf adj p ∧ d ≠ dest ∧ y = p ++ [d] := by
  simp only [queuedOf, List.mem_map, List.mem_filter, Bool.not_eq_true',
    decide_eq_false_iff_not]
  constructor
  · rintro ⟨d, ⟨hd, hne⟩, rfl⟩
    exact ⟨d, hd, hne, rfl⟩
  · rintro ⟨d, hd, hne, rfl⟩
    exact ⟨d, ⟨hd, hne⟩, rfl⟩

/-! ### Claim C5: a root equal to its destination -/

/-- C5: for every adjacency map, fuel and address `X`,
`find_paths_breadth_first adj X X` returns exactly the single
one-element path `[X]`; because the result does not depend on the
adjacency map or the fuel, no expansion of `X`'s outgoing edges takes
place. -/
theorem find_paths_self_trivial (adj : List (α × List α)) (x : α) (fuel : Nat) :
    find_paths_breadth_first adj x x fuel = some [[x]] := by
  simp [find_paths_breadth_first]

/-! ### Claim C10: absent adjacency keys -/

/-- C10: expanding a dequeued path ending at an address `u` that is
absent from the adjacency map yields nothing and enqueues nothing: the
loop step just records the edge key and moves on to the rest of the
queue (and, being a total function, raises no error). -/
theorem walk_absent_key_no_expansion (adj : List (α × List α)) (dest : α)
    (n : Nat) (q : List α) (u : α) (rest : List (List α))
    (visited : List (Option α × Option α))
    (habs : lookupEntry adj u = none)
    (hnv : edgeKey (q ++ [u]) ∉ visited) :
    walkPaths adj dest (n + 1) ((q ++ [u]) :: rest) visited =
      walkPaths adj dest n rest (edgeKey (q ++ [u]) :: visited) := by
  have hadj : getAdj adj u = [] := by simp [getAdj, habs]
  have hdeps : depsOf adj (q ++ [u]) = [] := by simp [depsOf_concat, hadj]
  rw [walkPaths_expand adj dest n _ rest visited hnv]
  simp [yieldsOf, queuedOf, hdeps]

/-- Witness for C10 at a concrete input: the empty adjacency map has
no key `0`, so the sole queued path `[0]` is dropped without yields. -/
theorem walk_absent_key_no_expansion_witness :
    lookupEntry ([] : List (Nat × List Nat)) 0 = none ∧
      edgeKey (([] : List Nat) ++ [0]) ∉ ([] : List (Option Nat × Option Nat)) ∧
      walkPaths ([] : List (Nat × List Nat)) 1 4 [([] : List Nat) ++ [0]] [] =
        walkPaths ([] : List (Nat × List Nat)) 1 3 [] [edgeKey ([(0 : Nat)])] :=
  ⟨by decide, by decide,
    walk_absent_key_no_expansion [] 1 3 [] 0 [] [] (by decide) (by decide)⟩

/-! ### Claim C9: structure of every yielded path -/

/-- Queue invariant for `walkPaths`: every enqueued path is nonempty,
starts at the root, is a chain of adjacency edges, and avoids the
destination; every yield extends such a path by one edge into the
destination. -/
theorem walk_yields_structure (adj : List (α × List α)) (f t : α) :
    ∀ (fuel : Nat) (q : List (List α)) (visited : List (Option α × Option α))
      (ys : List (List α)) (vfin : List (Option α × Option α)),
      walkPaths adj t fuel q visited = some (ys, vfin) →
      (∀ p ∈ q, p ≠ [] ∧ p.head? = some f ∧ List.Chain' (hasEdge adj) p ∧ t ∉ p) →
      ∀ y ∈ ys, y.head? = some f ∧ y.getLast? = some t ∧
        y.count t = 1 ∧ List.Chain' (hasEdge adj) y := by
  intro fuel
  induction fuel with
  | zero => intro q visited ys vfin h; simp [walkPaths] at h
  | succ n ih =>
    intro q visited ys vfin h hq
    match q with
    | [] =>
      rw [walkPaths_nil] at h
      obtain ⟨rfl, rfl⟩ := by simpa using h
      intro y hy; simp at hy
    | p :: rest =>
      by_cases hv : edgeKey p ∈ visited
      · rw [walkPaths_skip adj t n p rest visited hv] at h
        exact ih rest visited ys vfin h (fun p' hp' => hq p' (by simp [hp']))
      · rw [walkPaths_expand adj t n p rest visited hv] at h
        cases hinner : walkPaths adj t n (rest ++ queuedOf adj t p)
            (edgeKey p :: visited) with
        | none => rw [hinner] at h; simp at h
        | some r =>
          rw [hinner] at h
          obtain ⟨hys, -⟩ : yieldsOf adj t p ++ r.1 = ys ∧ r.2 = vfin := by
            simpa using h
          obtain ⟨hpne, hphead, hpchain, hpt⟩ := hq p (by simp)
          intro y hy
          rw [← hys, List.mem_append] at hy
          rcases hy with hy | hy
          · -- a fresh yield: `y = p ++ [t]` with `t` a dependency of `p`'s last
            obtain ⟨hdep, rfl⟩ := mem_yieldsOf.mp hy
            obtain ⟨u, hu⟩ : ∃ u, p.getLast? = some u := by
              cases hlast : p.getLast? with
              | none => exact absurd (List.getLast?_eq_none_iff.mp hlast) hpne
              | some u => exact ⟨u, rfl⟩
            have hedge : hasEdge adj u t := by
              have : depsOf adj p = getAdj adj u := by simp [depsOf, hu]
              rw [this] at hdep; exact hdep
            refine ⟨?_, List.getLast?_concat _, ?_, ?_⟩
            · match p, hpne with
              | a :: p', _ => simpa using hphead
            · rw [List.count_append, List.count_eq_zero.mpr hpt]
              simp
            · refine List.chain'_append.mpr ⟨hpchain, List.chain'_singleton _, ?_⟩
              intro x hx y' hy'
              simp only [List.head?_cons, Option.mem_def, Option.some.injEq] at hy'
              rw [hu] at hx
              obtain rfl := by simpa using hx
              rw [← hy']; exact hedge
          · -- a yield of the recursive run: apply the induction hypothesis
            refine ih (rest ++ queuedOf adj t p) (edgeKey p :: visited) r.1 r.2
              (by simpa using hinner) ?_ y hy
            intro p' hp'
            rw [List.mem_append] at hp'
            rcases hp' with hp' | hp'
            · exact hq p' (by simp [hp'])
            · obtain ⟨d, hd, hdne, rfl⟩ := mem_queuedOf.mp hp'
              obtain ⟨u, hu⟩ : ∃ u, p.getLast? = some u := by
                cases hlast : p.getLast? with
                | none => exact absurd (List.getLast?_eq_none_iff.mp hlast) hpne
                | some u => exact ⟨u, rfl⟩
              have hedge : hasEdge adj u d := by
                have : depsOf adj p = getAdj adj u := by simp [depsOf, hu]
                rw [this] at hd; exact hd
              refine ⟨by simp, ?_, ?_, ?_⟩
              · match p, hpne with
                | a :: p', _ => simpa using hphead
              · refine List.chain'_append.mpr ⟨hpchain, List.chain'_singleton _, ?_⟩
                intro x hx y' hy'
                simp only [List.head?_cons, Option.mem_def, Option.some.injEq] at hy'
                rw [hu] at hx
                obtain rfl := by simpa using hx
                rw [← hy']; exact hedge
              · simp only [List.mem_append, List.mem_singleton]
                rintro (h | rfl)
                · exact hpt h
                · exact hdne rfl

/-- C9: when root and destination differ, every path yielded by
`find_paths_breadth_first` starts at the root, ends at the
destination, contains the destination exactly once (so never as an
interior element), and each consecutive pair of addresses is an edge
of the adjacency map. -/
theorem find_paths_yield_invariants (adj : List (α × List α)) (f t : α)
    (fuel : Nat) (ys : List (List α)) (hne : f ≠ t)
    (h : find_paths_breadth_first adj f t fuel = some ys) :
    ∀ y ∈ ys, y.head? = some f ∧ y.getLast? = some t ∧
      y.count t = 1 ∧ List.Chain' (hasEdge adj) y := by
  rw [find_paths_breadth_first, if_neg hne] at h
  cases hrun : walkPaths adj t fuel [[f]] [] with
  | none => rw [hrun] at h; simp at h
  | some r =>
    rw [hrun] at h
    obtain rfl : r.1 = ys := by simpa using h
    refine walk_yields_structure adj f t fuel [[f]] [] r.1 r.2 (by simp [hrun]) ?_
    intro p hp
    obtain rfl : p = [f] := by simpa using hp
    refine ⟨by simp, by simp, List.chain'_singleton _, ?_⟩
    simp only [List.mem_singleton]
    exact fun hft => hne hft.symm

/-- Witness for C9 on the one-edge graph `0 → 1`. -/
theorem find_paths_yield_invariants_witness :
    (0 : Nat) ≠ 1 ∧
      find_paths_breadth_first [((0 : Nat), [1])] 0 1 10 = some [[0, 1]] ∧
      ∀ y ∈ [[(0 : Nat), 1]], y.head? = some 0 ∧ y.getLast? = some 1 ∧
        y.count 1 = 1 ∧ List.Chain' (hasEdge [((0 : Nat), [1])]) y :=
  ⟨by decide, by decide,
    find_paths_yield_invariants [(0, [1])] 0 1 10 [[0, 1]] (by decide) (by decide)⟩

/-! ### Claim C7: yields are non-decreasing in length -/

theorem sorted_le_of_forall_eq (l : List ℕ) (c : ℕ) (h : ∀ x ∈ l, x = c) :
    l.Sorted (· ≤ ·) := by
  induction l with
  | nil => exact List.sorted_nil
  | cons a l ih =>
    refine List.sorted_cons.mpr ⟨fun b hb => ?_, ih fun x hx => h x (by simp [hx])⟩
    rw [h a (by simp), h b (by simp [hb])]

theorem length_mem_queuedOf {adj : List (α × List α)} {dest : α} {p e : List α}
    (h : e ∈ queuedOf adj dest p) : e.length = p.length + 1 := by
  obtain ⟨d, -, -, rfl⟩ := mem_queuedOf.mp h
  simp

theorem length_mem_yieldsOf {adj : List (α × List α)} {dest : α} {p e : List α}
    (h : e ∈ yieldsOf adj dest p) : e.length = p.length + 1 := by
  obtain ⟨-, rfl⟩ := mem_yieldsOf.mp h
  simp

/-- FIFO invariant of the path queue: if the queue lengths are sorted
and all lie within one hop of a lower bound `L`, then every yield of
the remaining run has length at least `L + 1` and the yield lengths
come out sorted. -/
theorem walk_yields_sorted (adj : List (α × List α)) (t : α) :
    ∀ (fuel : Nat) (q : List (List α)) (visited : List (Option α × Option α))
      (ys : List (List α)) (vfin : List (Option α × Option α)) (L : ℕ),
      walkPaths adj t fuel q visited = some (ys, vfin) →
      (q.map List.length).Sorted (· ≤ ·) →
      (∀ p ∈ q, L ≤ p.length) → (∀ p ∈ q, p.length ≤ L + 1) →
      (ys.map List.length).Sorted (· ≤ ·) ∧ ∀ y ∈ ys, L + 1 ≤ y.length := by
  intro fuel
  induction fuel with
  | zero => intro q visited ys vfin L h; simp [walkPaths] at h
  | succ n ih =>
    intro q visited ys vfin L h hsort hlo hhi
    match q with
    | [] =>
      rw [walkPaths_nil] at h
      obtain ⟨rfl, rfl⟩ := by simpa using h
      exact ⟨List.sorted_nil, by simp⟩
    | p :: rest =>
      have hrest_sort : (rest.map List.length).Sorted (· ≤ ·) :=
        (List.sorted_cons.mp (by simpa using hsort)).2
      have hrest_ge : ∀ x ∈ rest, p.length ≤ x.length := by
        intro x hx
        exact (List.sorted_cons.mp (by simpa using hsort)).1 x.length
          (List.mem_map_of_mem List.length hx)
      by_cases hv : edgeKey p ∈ visited
      · rw [walkPaths_skip adj t n p rest visited hv] at h
        exact ih rest visited ys vfin L h hrest_sort
          (fun p' hp' => hlo p' (by simp [hp']))
          (fun p' hp' => hhi p' (by simp [hp']))
      · rw [walkPaths_expand adj t n p rest visited hv] at h
        cases hinner : walkPaths adj t n (rest ++ queuedOf adj t p)
            (edgeKey p :: visited) with
        | none => rw [hinner] at h; simp at h
        | some r =>
          rw [hinner] at h
          obtain ⟨hys, -⟩ : yieldsOf adj t p ++ r.1 = ys ∧ r.2 = vfin := by
            simpa using h
          have hpL : L ≤ p.length := hlo p (by simp)
          have hpL' : p.length ≤ L + 1 := hhi p (by simp)
          have hq'sort : ((rest ++ queuedOf adj t p).map List.length).Sorted (· ≤ ·) := by
            rw [List.map_append]
            refine List.pairwise_append.mpr ⟨hrest_sort, ?_, ?_⟩
            · exact sorted_le_of_forall_eq _ (p.length + 1) (by
                intro x hx
                obtain ⟨e, he, rfl⟩ := List.mem_map.mp hx
                exact length_mem_queuedOf he)
            · intro x hx y hy
              obtain ⟨e, he, rfl⟩ := List.mem_map.mp hx
              obtain ⟨e', he', rfl⟩ := List.mem_map.mp hy
              rw [length_mem_queuedOf he']
              calc e.length ≤ L + 1 := hhi e (by simp [he])
                _ ≤ p.length + 1 := by omega
          have hq'lo : ∀ p' ∈ rest ++ queuedOf adj t p, p.length ≤ p'.length := by
            intro p' hp'
            rcases List.mem_append.mp hp' with hp' | hp'
            · exact hrest_ge p' hp'
            · rw [length_mem_queuedOf hp']; omega
          have hq'hi : ∀ p' ∈ rest ++ queuedOf adj t p, p'.length ≤ p.length + 1 := by
            intro p' hp'
            rcases List.mem_append.mp hp' with hp' | hp'
            · calc p'.length ≤ L + 1 := hhi p' (by simp [hp'])
                _ ≤ p.length + 1 := by omega
            · rw [length_mem_queuedOf hp']
          obtain ⟨hr_sort, hr_lo⟩ := ih (rest ++ queuedOf adj t p)
            (edgeKey p :: visited) r.1 r.2 p.length (by simpa using hinner)
            hq'sort hq'lo hq'hi
          constructor
          · rw [← hys, List.map_append]
            refine List.pairwise_append.mpr ⟨?_, hr_sort, ?_⟩
            · exact sorted_le_of_forall_eq _ (p.length + 1) (by
                intro x hx
                obtain ⟨e, he, rfl⟩ := List.mem_map.mp hx
                exact length_mem_yieldsOf he)
            · intro x hx y hy
              obtain ⟨e, he, rfl⟩ := List.mem_map.mp hx
              obtain ⟨e', he', rfl⟩ := List.mem_map.mp hy
              rw [length_mem_yieldsOf he]
              exact hr_lo e' he'
          · intro y hy
            rw [← hys, List.mem_append] at hy
            rcases hy with hy | hy
            · rw [length_mem_yieldsOf hy]; omega
            · calc L + 1 ≤ p.length + 1 := by omega
                _ ≤ y.length := hr_lo y hy

/-- C7: the sequence of paths yielded by `find_paths_breadth_first` is
non-decreasing in path length (shortest first). -/
theorem find_paths_sorted_by_length (adj : List (α × List α)) (f t : α)
    (fuel : Nat) (ys : List (List α))
    (h : find_paths_breadth_first adj f t fuel = some ys) :
    (ys.map List.length).Sorted (· ≤ ·) := by
  rw [find_paths_breadth_first] at h
  by_cases hft : f = t
  · rw [if_pos hft] at h
    obtain rfl : [[f]] = ys := by simpa using h
    simp [List.Sorted]
  · rw [if_neg hft] at h
    cases hrun : walkPaths adj t fuel [[f]] [] with
    | none => rw [hrun] at h; simp at h
    | some r =>
      rw [hrun] at h
      obtain rfl : r.1 = ys := by simpa using h
      exact (walk_yields_sorted adj t fuel [[f]] [] r.1 r.2 1
        (by simpa using hrun) (by simp) (by simp) (by simp)).1

/-- Witness for C7 on the graph `0 → 1, 0 → 2, 1 → 2`: the direct
length-2 path to `2` comes out before the length-3 path through `1`. -/
theorem find_paths_sorted_by_length_witness :
    find_paths_breadth_first [((0 : Nat), [1, 2]), (1, [2])] 0 2 10 =
        some [[0, 2], [0, 1, 2]] ∧
      (([[(0 : Nat), 2], [0, 1, 2]].map List.length).Sorted (· ≤ ·)) :=
  ⟨by decide,
    find_paths_sorted_by_length [(0, [1, 2]), (1, [2])] 0 2 10 _ (by decide)⟩

/-! ### Claim C1: which paths are and are not enumerated

The visited-edge rule keys on `(prev, current)` pairs, so a second
simple path that crosses an already-expanded `(prev, current)` edge is
silently dropped; the claim that *every* simple path is yielded is
false.  What does hold: a path is yielded **iff** the destination is
reachable at all.  The completeness half rests on three facts about a
terminating run: the visited set only grows; every path that is ever
in the queue has its edge key in the final visited set; and the final
visited set is closed under expansion (every dependency of an expanded
node was either yielded into the output or expanded itself). -/

theorem walk_visited_mono (adj : List (α × List α)) (t : α) :
    ∀ (fuel : Nat) (q : List (List α)) (v : List (Option α × Option α))
      (ys : List (List α)) (vf : List (Option α × Option α)),
      walkPaths adj t fuel q v = some (ys, vf) → ∀ k ∈ v, k ∈ vf := by
  intro fuel
  induction fuel with
  | zero => intro q v ys vf h; simp [walkPaths] at h
  | succ n ih =>
    intro q v ys vf h k hk
    match q with
    | [] =>
      rw [walkPaths_nil] at h
      obtain ⟨-, rfl⟩ := by simpa using h
      exact hk
    | p :: rest =>
      by_cases hv : edgeKey p ∈ v
      · rw [walkPaths_skip adj t n p rest v hv] at h
        exact ih rest v ys vf h k hk
      · rw [walkPaths_expand adj t n p rest v hv] at h
        cases hinner : walkPaths adj t n (rest ++ queuedOf adj t p)
            (edgeKey p :: v) with
        | none => rw [hinner] at h; simp at h
        | some r =>
          rw [hinner] at h
          obtain ⟨-, hvf⟩ : yieldsOf adj t p ++ r.1 = ys ∧ r.2 = vf := by
            simpa using h
          rw [← hvf]
          exact ih _ _ r.1 r.2 (by simpa using hinner) k (by simp [hk])

theorem walk_queue_processed (adj : List (α × List α)) (t : α) :
    ∀ (fuel : Nat) (q : List (List α)) (v : List (Option α × Option α))
      (ys : List (List α)) (vf : List (Option α × Option α)),
      walkPaths adj t fuel q v = some (ys, vf) → ∀ p ∈ q, edgeKey p ∈ vf := by
  intro fuel
  induction fuel with
  | zero => intro q v ys vf h; simp [walkPaths] at h
  | succ n ih =>
    intro q v ys vf h p hp
    match q with
    | [] => simp at hp
    | p₀ :: rest =>
      by_cases hv : edgeKey p₀ ∈ v
      · rw [walkPaths_skip adj t n p₀ rest v hv] at h
        rcases List.mem_cons.mp hp with rfl | hp
        · exact walk_visited_mono adj t n rest v ys vf h _ hv
        · exact ih rest v ys vf h p hp
      · rw [walkPaths_expand adj t n p₀ rest v hv] at h
        cases hinner : walkPaths adj t n (rest ++ queuedOf adj t p₀)
            (edgeKey p₀ :: v) with
        | none => rw [hinner] at h; simp at h
        | some r =>
          rw [hinner] at h
          obtain ⟨-, hvf⟩ : yieldsOf adj t p₀ ++ r.1 = ys ∧ r.2 = vf := by
            simpa using h
          rw [← hvf]
          rcases List.mem_cons.mp hp with rfl | hp
          · exact walk_visited_mono adj t n _ _ r.1 r.2 (by simpa using hinner)
              _ (by simp)
          · exact ih _ _ r.1 r.2 (by simpa using hinner) p (by simp [hp])

theorem walk_visited_closure (adj : List (α × List α)) (t : α) :
    ∀ (fuel : Nat) (q : List (List α)) (v : List (Option α × Option α))
      (ys : List (List α)) (vf : List (Option α × Option α)),
      walkPaths adj t fuel q v = some (ys, vf) →
      ∀ pr u, (pr, some u) ∈ vf →
        (pr, some u) ∈ v ∨
          ∀ w ∈ getAdj adj u, (w = t → ys ≠ []) ∧ (w ≠ t → (some u, some w) ∈ vf) := by
  intro fuel
  induction fuel with
  | zero => intro q v ys vf h; simp [walkPaths] at h
  | succ n ih =>
    intro q v ys vf h pr u hk
    match q with
    | [] =>
      rw [walkPaths_nil] at h
      obtain ⟨-, rfl⟩ := by simpa using h
      exact Or.inl hk
    | p :: rest =>
      by_cases hv : edgeKey p ∈ v
      · rw [walkPaths_skip adj t n p rest v hv] at h
        exact ih rest v ys vf h pr u hk
      · rw [walkPaths_expand adj t n p rest v hv] at h
        cases hinner : walkPaths adj t n (rest ++ queuedOf adj t p)
            (edgeKey p :: v) with
        | none => rw [hinner] at h; simp at h
        | some r =>
          rw [hinner] at h
          obtain ⟨hys, hvf⟩ : yieldsOf adj t p ++ r.1 = ys ∧ r.2 = vf := by
            simpa using h
          rcases ih _ _ r.1 r.2 (by simpa using hinner) pr u (hvf ▸ hk) with hin | hexp
          · rcases List.mem_cons.mp hin with hkey | hin
            · -- the key was expanded at this very step
              right
              have hlast : p.getLast? = some u := by
                have := congrArg Prod.snd hkey
                simpa [edgeKey, eq_comm] using this
              have hdeps : depsOf adj p = getAdj adj u := by
                simp [depsOf, hlast]
              intro w hw
              constructor
              · intro hwt
                have hy : p ++ [t] ∈ yieldsOf adj t p :=
                  mem_yieldsOf.mpr ⟨hdeps ▸ (hwt ▸ hw), rfl⟩
                intro hnil
                rw [← hys] at hnil
                rcases List.append_eq_nil.mp hnil with ⟨h1, -⟩
                rw [h1] at hy
                simp at hy
              · intro hwt
                have hmem : p ++ [w] ∈ rest ++ queuedOf adj t p := by
                  refine List.mem_append_right _ ?_
                  exact mem_queuedOf.mpr ⟨w, hdeps ▸ hw, hwt, rfl⟩
                have := walk_queue_processed adj t n _ _ r.1 r.2
                  (by simpa using hinner) _ hmem
                rw [edgeKey_concat, hlast] at this
                exact hvf ▸ this
            · exact Or.inl hin
          · right
            intro w hw
            refine ⟨fun hwt => ?_, fun hwt => hvf ▸ (hexp w hw).2 hwt⟩
            have := (hexp w hw).1 hwt
            intro hnil
            rw [← hys] at hnil
            rcases List.append_eq_nil.mp hnil with ⟨-, h2⟩
            exact this h2

theorem chain'_getLast?_transGen (r : α → α → Prop) :
    ∀ (l : List α) (a b : α), List.Chain' r (a :: l) →
      (a :: l).getLast? = some b → a ≠ b → Relation.TransGen r a b := by
  intro l
  induction l with
  | nil =>
    intro a b _ hlast hne
    exact absurd (by simpa using hlast) hne
  | cons c l' ih =>
    intro a b hchain hlast hne
    obtain ⟨rac, hchain'⟩ := List.chain'_cons.mp hchain
    by_cases hcb : c = b
    · exact Relation.TransGen.single (hcb ▸ rac)
    · exact Relation.TransGen.head rac
        (ih c b hchain' (by simpa using hlast) hcb)

/-- Any walk reaching the destination decomposes into a prefix that
avoids the destination followed by one final edge into it. -/
theorem transGen_decompose (adj : List (α × List α)) (t : α) {a : α}
    (h : Relation.TransGen (hasEdge adj) a t) :
    ∃ u, Relation.ReflTransGen (fun x y => hasEdge adj x y ∧ y ≠ t) a u ∧
      t ∈ getAdj adj u := by
  induction h using Relation.TransGen.head_induction_on with
  | base hr => exact ⟨_, Relation.ReflTransGen.refl, hr⟩
  | ih hr hTG ihP =>
    rename_i a' c
    by_cases hct : c = t
    · subst hct
      exact ⟨_, Relation.ReflTransGen.refl, hr⟩
    · obtain ⟨u, hrtg, hu⟩ := ihP
      exact ⟨u, Relation.ReflTransGen.head ⟨hr, hct⟩ hrtg, hu⟩

/-- Every node reachable from the root along destination-avoiding
edges has an incoming edge key in the final visited set: it got
expanded at some point of the run. -/
theorem walk_reachable_expanded (adj : List (α × List α)) (f t : α)
    (fuel : Nat) (ys : List (List α)) (vf : List (Option α × Option α))
    (hrun : walkPaths adj t fuel [[f]] [] = some (ys, vf)) :
    ∀ u, Relation.ReflTransGen (fun x y => hasEdge adj x y ∧ y ≠ t) f u →
      ∃ pr, (pr, some u) ∈ vf := by
  have hroot : ((none : Option α), some f) ∈ vf := by
    have := walk_queue_processed adj t fuel [[f]] [] ys vf hrun [f] (by simp)
    simpa [edgeKey] using this
  intro u h
  induction h with
  | refl => exact ⟨none, hroot⟩
  | tail hrtg hstep ih =>
    obtain ⟨pr, hpr⟩ := ih
    obtain ⟨hedge, hne⟩ := hstep
    rcases walk_visited_closure adj t fuel [[f]] [] ys vf hrun pr _ hpr with
      hin | hexp
    · simp at hin
    · exact ⟨some _, (hexp _ hedge).2 hne⟩

/-- C1 (amended): for root ≠ destination, `find_paths_breadth_first`
yields at least one path **iff** the destination is reachable from the
root through the adjacency map; together with C9 every yielded path is
a genuine root-to-destination edge path.  (The original claim — that
*every* simple path is yielded — is refuted by
`find_paths_misses_simple_path` below.) -/
theorem find_paths_nonempty_iff_reachable (adj : List (α × List α)) (f t : α)
    (fuel : Nat) (ys : List (List α)) (hne : f ≠ t)
    (h : find_paths_breadth_first adj f t fuel = some ys) :
    ys ≠ [] ↔ Relation.TransGen (hasEdge adj) f t := by
  rw [find_paths_breadth_first, if_neg hne] at h
  cases hrun : walkPaths adj t fuel [[f]] [] with
  | none => rw [hrun] at h; simp at h
  | some r =>
    rw [hrun] at h
    obtain rfl : r.1 = ys := by simpa using h
    constructor
    · intro hys
      obtain ⟨y, hy⟩ : ∃ y, y ∈ r.1 := by
        cases hr1 : r.1 with
        | nil => exact absurd hr1 hys
        | cons y ys' => exact ⟨y, by simp [hr1]⟩
      have hstruct := walk_yields_structure adj f t fuel [[f]] [] r.1 r.2
        (by simpa using hrun) ?_ y hy
      · obtain ⟨hhead, hlast, -, hchain⟩ := hstruct
        obtain ⟨y', rfl⟩ : ∃ y', y = f :: y' := by
          cases y with
          | nil => simp at hhead
          | cons a y' => exact ⟨y', by rw [(by simpa using hhead : a = f)]⟩
        exact chain'_getLast?_transGen (hasEdge adj) y' f t hchain hlast hne
      · intro p hp
        obtain rfl : p = [f] := by simpa using hp
        refine ⟨by simp, by simp, List.chain'_singleton _, ?_⟩
        simp only [List.mem_singleton]
        exact fun hft => hne hft.symm
    · intro hTG
      obtain ⟨u, hrtg, hu⟩ := transGen_decompose adj t hTG
      obtain ⟨pr, hpr⟩ := walk_reachable_expanded adj f t fuel r.1 r.2
        (by simpa using hrun) u hrtg
      rcases walk_visited_closure adj t fuel [[f]] [] r.1 r.2
        (by simpa using hrun) pr u hpr with hin | hexp
      · simp at hin
      · exact (hexp t hu).1 rfl

/-- The adjacency map `0 → {1, 2}`, `1 → 3`, `2 → 3`, `3 → 4`,
`4 → 5`: two simple paths lead from `0` to `5`, and they share the
interior edge `(3, 4)`. -/
def cexAdj : List (Nat × List Nat) :=
  [(0, [1, 2]), (1, [3]), (2, [3]), (3, [4]), (4, [5])]

/-- C1 counterexample: on `cexAdj` the enumeration from `0` to `5`
terminates and yields only `[0, 1, 3, 4, 5]`, although
`[0, 2, 3, 4, 5]` is also a simple path of the map from `0` to `5`:
its final edge key `(3, 4)` was already expanded for the first path,
so the second one is dropped.  Hence not every simple path is
yielded. -/
theorem find_paths_misses_simple_path :
    find_paths_breadth_first cexAdj 0 5 20 = some [[0, 1, 3, 4, 5]] ∧
      List.Chain' (hasEdge cexAdj) [0, 2, 3, 4, 5] ∧
      List.Nodup [0, 2, 3, 4, 5] ∧
      [0, 2, 3, 4, 5].head? = some 0 ∧
      [0, 2, 3, 4, 5].getLast? = some 5 ∧
      [0, 2, 3, 4, 5] ∉ [[0, 1, 3, 4, 5]] := by
  refine ⟨by decide, ?_, by decide, by decide, by decide, by decide⟩
  simp only [List.chain'_cons, List.chain'_singleton, and_true]
  refine ⟨?_, ?_, ?_, ?_⟩ <;> decide

/-- Witness for the amended C1 on the one-edge graph `0 → 1`. -/
theorem find_paths_nonempty_iff_reachable_witness :
    (0 : Nat) ≠ 1 ∧
      find_paths_breadth_first [((0 : Nat), [1])] 0 1 10 = some [[0, 1]] ∧
      ([[(0 : Nat), 1]] ≠ [] ↔
        Relation.TransGen (hasEdge [((0 : Nat), [1])]) 0 1) :=
  ⟨by decide, by decide,
    find_paths_nonempty_iff_reachable [(0, [1])] 0 1 10 [[0, 1]]
      (by decide) (by decide)⟩

/-! ### Claim C6: termination on arbitrary (also cyclic) graphs

The loop terminates because each dequeue either consumes a queue entry
without expansion, or adds a fresh `(prev, current)` key to the
visited set; the keys live in the finite set built from the root and
the finitely many adjacency values, and a single expansion enqueues at
most as many paths as the adjacency map holds values in total. -/

/-- All addresses occurring in the value lists of the map. -/
def valuesFinset (m : List (α × List α)) : Finset α :=
  m.foldr (fun e acc => e.2.toFinset ∪ acc) ∅

/-- The total number of value entries of the map: an upper bound on
the length of any single adjacency list. -/
def totalDeg (m : List (α × List α)) : ℕ :=
  (m.map (fun e => e.2.length)).sum

/-- The finite universe of `(prev, current)` edge keys over a node
universe `S`. -/
def keysU (S : Finset α) : Finset (Option α × Option α) :=
  (insert (none : Option α) (S.image some)) ×ˢ (S.image some)

theorem mem_valuesFinset_of_mem_getAdj {m : List (α × List α)} {x y : α}
    (h : y ∈ getAdj m x) : y ∈ valuesFinset m := by
  rw [getAdj] at h
  cases hfind : lookupEntry m x with
  | none => rw [hfind] at h; simp at h
  | some e =>
    rw [hfind] at h
    have hmem : e ∈ m := List.mem_of_find?_eq_some hfind
    clear hfind
    induction m with
    | nil => simp at hmem
    | cons e' m ih =>
      rcases List.mem_cons.mp hmem with rfl | hmem
      · simp [valuesFinset, List.mem_toFinset.mpr h]
      · have := ih hmem
        simp only [valuesFinset, List.foldr_cons] at this ⊢
        exact Finset.mem_union_right _ this

theorem getAdj_length_le (m : List (α × List α)) (x : α) :
    (getAdj m x).length ≤ totalDeg m := by
  rw [getAdj]
  cases hfind : lookupEntry m x with
  | none => simp
  | some e =>
    have hmem : e ∈ m := List.mem_of_find?_eq_some hfind
    exact List.single_le_sum (fun n _ => Nat.zero_le n) e.2.length
      (List.mem_map_of_mem (fun e => e.2.length) hmem)

theorem edgeKey_mem_keysU {S : Finset α} {p : List α}
    (hne : p ≠ []) (hsub : ∀ a ∈ p, a ∈ S) : edgeKey p ∈ keysU S := by
  rw [keysU, Finset.mem_product]
  constructor
  · rcases hd : p.dropLast.getLast? with - | b
    · simp [edgeKey, hd]
    · have : b ∈ p :=
        (List.dropLast_sublist p).subset (List.mem_of_mem_getLast? hd)
      simp only [edgeKey, hd]
      exact Finset.mem_insert_of_mem (Finset.mem_image_of_mem some (hsub b this))
  · obtain ⟨u, hu⟩ : ∃ u, p.getLast? = some u := by
      cases hg : p.getLast? with
      | none => exact absurd (List.getLast?_eq_none_iff.mp hg) hne
      | some u => exact ⟨u, rfl⟩
    simp only [edgeKey, hu]
    exact Finset.mem_image_of_mem some (hsub u (List.mem_of_mem_getLast? hu))

theorem queuedOf_length_le (adj : List (α × List α)) (t : α) (p : List α) :
    (queuedOf adj t p).length ≤ totalDeg adj := by
  rw [queuedOf, List.length_map]
  refine le_trans (List.length_filter_le _ _) ?_
  rw [depsOf]
  cases p.getLast? with
  | none => simp
  | some u => exact getAdj_length_le adj u

/-- The loop of `find_paths_breadth_first` finishes from any state
whose measure is bounded: each step either drops a queue entry or
claims a fresh edge key from the finite key universe. -/
theorem walk_total (adj : List (α × List α)) (t f : α) :
    ∀ (N : ℕ) (q : List (List α)) (v : List (Option α × Option α)),
      ((keysU (insert f (valuesFinset adj))).card - v.length) *
          (totalDeg adj + 2) + q.length ≤ N →
      (∀ p ∈ q, p ≠ [] ∧ ∀ a ∈ p, a ∈ insert f (valuesFinset adj)) →
      v.Nodup → (∀ k ∈ v, k ∈ keysU (insert f (valuesFinset adj))) →
      ∃ n ys vf, walkPaths adj t n q v = some (ys, vf) := by
  intro N
  induction N with
  | zero =>
    intro q v hN hq hnd hv
    match q with
    | [] => exact ⟨1, [], v, rfl⟩
    | p :: rest => simp at hN
  | succ N ih =>
    intro q v hN hq hnd hv
    match q with
    | [] => exact ⟨1, [], v, rfl⟩
    | p :: rest =>
      by_cases hvis : edgeKey p ∈ v
      · obtain ⟨n, ys, vf, h⟩ := ih rest v
          (by
            set P := ((keysU (insert f (valuesFinset adj))).card - v.length) *
              (totalDeg adj + 2) with hP
            simp only [List.length_cons] at hN
            omega)
          (fun p' hp' => hq p' (by simp [hp'])) hnd hv
        exact ⟨n + 1, ys, vf, by rw [walkPaths_skip adj t n p rest v hvis]; exact h⟩
      · obtain ⟨hpne, hpsub⟩ := hq p (by simp)
        have hkey : edgeKey p ∈ keysU (insert f (valuesFinset adj)) :=
          edgeKey_mem_keysU hpne hpsub
        have hcard : v.length + 1 ≤ (keysU (insert f (valuesFinset adj))).card := by
          have hsub : insert (edgeKey p) v.toFinset ⊆
              keysU (insert f (valuesFinset adj)) := by
            intro k hk
            rcases Finset.mem_insert.mp hk with rfl | hk
            · exact hkey
            · exact hv k (List.mem_toFinset.mp hk)
          have hcardins : (insert (edgeKey p) v.toFinset).card = v.length + 1 := by
            rw [Finset.card_insert_of_not_mem (fun hm => hvis (List.mem_toFinset.mp hm)),
              List.toFinset_card_of_nodup hnd]
          rw [← hcardins]
          exact Finset.card_le_card hsub
        have hqlen : (queuedOf adj t p).length ≤ totalDeg adj :=
          queuedOf_length_le adj t p
        obtain ⟨n, ys, vf, h⟩ := ih (rest ++ queuedOf adj t p) (edgeKey p :: v)
          (by
            have hsplit : (keysU (insert f (valuesFinset adj))).card - v.length =
                ((keysU (insert f (valuesFinset adj))).card - (v.length + 1)) + 1 := by
              omega
            rw [hsplit, add_mul, one_mul] at hN
            set P := ((keysU (insert f (valuesFinset adj))).card - (v.length + 1)) *
              (totalDeg adj + 2) with hP
            simp only [List.length_cons, List.length_append, List.length_cons] at hN ⊢
            omega)
          (by
            intro p' hp'
            rcases List.mem_append.mp hp' with hp' | hp'
            · exact hq p' (by simp [hp'])
            · obtain ⟨d, hd, -, rfl⟩ := mem_queuedOf.mp hp'
              refine ⟨by simp, ?_⟩
              intro a ha
              rcases List.mem_append.mp ha with ha | ha
              · exact hpsub a ha
              · obtain rfl : a = d := by simpa using ha
                rw [depsOf] at hd
                cases hg : p.getLast? with
                | none => rw [hg] at hd; simp at hd
                | some u =>
                  rw [hg] at hd
                  exact Finset.mem_insert_of_mem (mem_valuesFinset_of_mem_getAdj hd))
          (List.nodup_cons.mpr ⟨hvis, hnd⟩)
          (by
            intro k hk
            rcases List.mem_cons.mp hk with rfl | hk
            · exact hkey
            · exact hv k hk)
        refine ⟨n + 1, yieldsOf adj t p ++ ys, vf, ?_⟩
        rw [walkPaths_expand adj t n p rest v hvis, h]
        rfl

/-- C6: for every finite adjacency map — cyclic or not — the
enumeration terminates: some finite fuel makes the run complete and
return its finite list of yielded paths. -/
theorem find_paths_terminates (adj : List (α × List α)) (f t : α) :
    ∃ fuel ys, find_paths_breadth_first adj f t fuel = some ys := by
  by_cases hft : f = t
  · exact ⟨0, [[f]], by simp [find_paths_breadth_first, hft]⟩
  · obtain ⟨n, ys, vf, h⟩ := walk_total adj t f
      ((keysU (insert f (valuesFinset adj))).card * (totalDeg adj + 2) + 1)
      [[f]] []
      (by simp)
      (by
        intro p hp
        obtain rfl : p = [f] := by simpa using hp
        exact ⟨by simp, by simp⟩)
      List.nodup_nil (by simp)
    exact ⟨n, ys, by simp [find_paths_breadth_first, hft, h]⟩

/-! ### The reverse-dependency index of `dependents.py`

`map_addresses_to_dependents` receives the snapshot of all targets
zipped with their resolved forward dependencies — modelled as a list
of `(address, dependency addresses)` pairs — and inverts it with
`address_to_dependents[dependency].add(tgt.address)` over a
`defaultdict(set)`.  The dict is the association list; the set is an
insertion-ordered duplicate-free list. -/

/-- `address_to_dependents[dep].add(addr)`: insert `addr` into the set
stored under `dep`, materialising the entry if the key is new. -/
def addDependent (m : List (α × List α)) (dep addr : α) : List (α × List α) :=
  match m with
  | [] => [(dep, [addr])]
  | e :: rest =>
    if e.1 = dep then
      (e.1, if addr ∈ e.2 then e.2 else e.2 ++ [addr]) :: rest
    else e :: addDependent rest dep addr

/-- `map_addresses_to_dependents` (dependents.py lines 44-66): the two
nested `for` loops over the snapshot and each target's
dependencies. -/
def map_addresses_to_dependents (snapshot : List (α × List α)) :
    List (α × List α) :=
  snapshot.foldl
    (fun m tgt => tgt.2.foldl (fun m' dep => addDependent m' dep tgt.1) m) []

theorem getAdj_nil (x : α) : getAdj ([] : List (α × List α)) x = [] := rfl

theorem getAdj_cons (e : α × List α) (m : List (α × List α)) (x : α) :
    getAdj (e :: m) x = if e.1 = x then e.2 else getAdj m x := by
  by_cases h : e.1 = x
  · simp [getAdj, lookupEntry, List.find?_cons_of_pos, h]
  · simp only [getAdj, lookupEntry] at *
    rw [List.find?_cons_of_neg _ (by simpa using h), if_neg h]

theorem mem_getAdj_addDependent {m : List (α × List α)} {dep addr x a : α} :
    a ∈ getAdj (addDependent m dep addr) x ↔
      a ∈ getAdj m x ∨ (x = dep ∧ a = addr) := by
  induction m with
  | nil =>
    by_cases h : x = dep
    · subst h
      simp [addDependent, getAdj_cons, getAdj_nil]
    · rw [addDependent]
      rw [getAdj_cons, if_neg (fun hh => h hh.symm), getAdj_nil]
      simp [h]
  | cons e rest ih =>
    rw [addDependent]
    by_cases he : e.1 = dep
    · rw [if_pos he, getAdj_cons, getAdj_cons]
      by_cases hx : e.1 = x
      · rw [if_pos hx, if_pos hx]
        have hxdep : x = dep := hx.symm.trans he
        by_cases hin : addr ∈ e.2
        · rw [if_pos hin]
          simp only [hxdep, true_and]
          constructor
          · exact Or.inl
          · rintro (h | rfl)
            · exact h
            · exact hin
        · rw [if_neg hin]
          simp [hxdep]
      · rw [if_neg hx, if_neg hx]
        have hno : ¬(x = dep ∧ a = addr) := fun hc => hx (he.trans hc.1.symm)
        simp [hno]
    · rw [if_neg he, getAdj_cons, getAdj_cons]
      by_cases hx : e.1 = x
      · rw [if_pos hx, if_pos hx]
        have hno : ¬(x = dep ∧ a = addr) := fun hc => he (hx.trans hc.1)
        simp [hno]
      · rw [if_neg hx, if_neg hx]
        exact ih

theorem mem_getAdj_foldl_addDependent (N : α) :
    ∀ (ds : List α) (m : List (α × List α)) (x a : α),
      a ∈ getAdj (ds.foldl (fun m' dep => addDependent m' dep N) m) x ↔
        a ∈ getAdj m x ∨ (x ∈ ds ∧ a = N) := by
  intro ds
  induction ds with
  | nil => intro m x a; simp
  | cons d ds ih =>
    intro m x a
    rw [List.foldl_cons, ih, mem_getAdj_addDependent]
    simp only [List.mem_cons]
    constructor
    · rintro ((h | ⟨rfl, rfl⟩) | ⟨hx, rfl⟩)
      · exact Or.inl h
      · exact Or.inr ⟨Or.inl rfl, rfl⟩
      · exact Or.inr ⟨Or.inr hx, rfl⟩
    · rintro (h | ⟨(hx | hx), rfl⟩)
      · exact Or.inl (Or.inl h)
      · exact Or.inl (Or.inr ⟨hx, rfl⟩)
      · exact Or.inr ⟨hx, rfl⟩

theorem mem_getAdj_build :
    ∀ (snapshot m : List (α × List α)) (x a : α),
      a ∈ getAdj (snapshot.foldl
          (fun m tgt => tgt.2.foldl (fun m' dep => addDependent m' dep tgt.1) m)
          m) x ↔
        a ∈ getAdj m x ∨ ∃ ds, (a, ds) ∈ snapshot ∧ x ∈ ds := by
  intro snapshot
  induction snapshot with
  | nil => intro m x a; simp
  | cons tgt rest ih =>
    intro m x a
    obtain ⟨N, ds0⟩ := tgt
    rw [List.foldl_cons, ih, mem_getAdj_foldl_addDependent]
    simp only [List.mem_cons, Prod.mk.injEq]
    constructor
    · rintro ((h | ⟨hx, rfl⟩) | ⟨ds, hds, hx⟩)
      · exact Or.inl h
      · exact Or.inr ⟨ds0, Or.inl ⟨rfl, rfl⟩, hx⟩
      · exact Or.inr ⟨ds, Or.inr hds, hx⟩
    · rintro (h | ⟨ds, (⟨rfl, rfl⟩ | hds), hx⟩)
      · exact Or.inl (Or.inl h)
      · exact Or.inl (Or.inr ⟨hx, rfl⟩)
      · exact Or.inr ⟨ds, hds, hx⟩

theorem eq_of_nodup_keys :
    ∀ {l : List (α × List α)}, (l.map Prod.fst).Nodup →
      ∀ {a : α} {b b' : List α}, (a, b) ∈ l → (a, b') ∈ l → b = b' := by
  intro l
  induction l with
  | nil => intro _ a b b' h1; simp at h1
  | cons e l ih =>
    intro hnd a b b' h1 h2
    rw [List.map_cons, List.nodup_cons] at hnd
    rcases List.mem_cons.mp h1 with h1e | h1
    · rcases List.mem_cons.mp h2 with h2e | h2
      · exact congrArg Prod.snd (h1e.trans h2e.symm)
      · exfalso
        have hmem : a ∈ l.map Prod.fst := by
          simpa using List.mem_map_of_mem Prod.fst h2
        apply hnd.1
        rw [← h1e]
        exact hmem
    · rcases List.mem_cons.mp h2 with h2e | h2
      · exfalso
        have hmem : a ∈ l.map Prod.fst := by
          simpa using List.mem_map_of_mem Prod.fst h1
        apply hnd.1
        rw [← h2e]
        exact hmem
      · exact ih hnd.2 h1 h2

/-- C3: over a snapshot whose node addresses are distinct, node `N`'s
address appears in the set the built mapping stores for address `D`
iff `D` is among `N`'s declared forward dependencies. -/
theorem map_addresses_to_dependents_inverse (snapshot : List (α × List α))
    (hnd : (snapshot.map Prod.fst).Nodup) (N : α) (ds : List α) (D : α)
    (hmem : (N, ds) ∈ snapshot) :
    N ∈ getAdj (map_addresses_to_dependents snapshot) D ↔ D ∈ ds := by
  rw [map_addresses_to_dependents, mem_getAdj_build]
  constructor
  · rintro (h | ⟨ds', hds', hD⟩)
    · rw [getAdj_nil] at h
      exact absurd h (List.not_mem_nil N)
    · rwa [eq_of_nodup_keys hnd hmem hds']
  · intro hD
    exact Or.inr ⟨ds, hmem, hD⟩

/-- Witness for C3 on the snapshot `{10 ↦ [20], 30 ↦ []}`. -/
theorem map_addresses_to_dependents_inverse_witness :
    (([((10 : Nat), [20]), (30, [])].map Prod.fst).Nodup) ∧
      ((10 : Nat), [20]) ∈ [((10 : Nat), [20]), (30, [])] ∧
      (10 ∈ getAdj (map_addresses_to_dependents [((10 : Nat), [20]), (30, [])]) 20 ↔
        20 ∈ [20]) :=
  ⟨by decide, by decide,
    map_addresses_to_dependents_inverse [(10, [20]), (30, [])]
      (by decide) 10 [20] 20 (by decide)⟩

/-! ### The transitive-dependents resolver `find_dependents`

dependents.py lines 87-106: starting from `check = set(request.addresses)`
and `known_dependents = set()`, each round unions into `dependents` the
reverse-index entries of everything in `check`; the loop stops when no
new address appeared or the request is not transitive, and the final
`return` applies the include-roots toggle.  The toggle is factored out
of the loop exit into `find_dependents` below, which is exact because
every `return` path applies it to the final `dependents` value. -/

/-- `dependents = set(known_dependents)` followed by
`dependents.update(address_to_dependents.mapping.get(target, ...))`
for every `target in check`. -/
def dependentsStep (m : List (α × List α)) (check known : Finset α) : Finset α :=
  known ∪ check.biUnion (fun tt => (getAdj m tt).toFinset)

/-- The `while True` loop of `find_dependents`, with fuel; returns the
final `dependents` set. -/
def dependentsLoop (m : List (α × List α)) (transitive : Bool) :
    Nat → Finset α → Finset α → Option (Finset α)
  | 0, _, _ => none
  | n + 1, check, known =>
    let dependents := dependentsStep m check known
    if dependents \ known = ∅ ∨ transitive = false then some dependents
    else dependentsLoop m transitive n (dependents \ known) dependents

/-- Enough fuel for the loop: the known set grows strictly inside the
finite universe of reverse-index values each round. -/
def depFuel (m : List (α × List α)) : ℕ := (valuesFinset m).card + 1

/-- `find_dependents(request, address_to_dependents)`: the loop's
final `dependents` with the `include_roots` adjustment of the `return`
statement. -/
def find_dependents (m : List (α × List α)) (roots : Finset α)
    (transitive include_roots : Bool) : Finset α :=
  let core := (dependentsLoop m transitive (depFuel m) roots ∅).getD ∅
  if include_roots then core ∪ roots else core \ roots

theorem dependentsStep_subset_values {m : List (α × List α)}
    {check known : Finset α} (hk : known ⊆ valuesFinset m) :
    dependentsStep m check known ⊆ valuesFinset m := by
  intro y hy
  rcases Finset.mem_union.mp hy with hy | hy
  · exact hk hy
  · obtain ⟨tt, -, hmem⟩ := Finset.mem_biUnion.mp hy
    exact mem_valuesFinset_of_mem_getAdj (List.mem_toFinset.mp hmem)

theorem dependentsLoop_some (m : List (α × List α)) (transitive : Bool) :
    ∀ (fuel : Nat) (check known : Finset α),
      known ⊆ valuesFinset m →
      (valuesFinset m).card + 1 ≤ fuel + known.card →
      ∃ d, dependentsLoop m transitive fuel check known = some d := by
  intro fuel
  induction fuel with
  | zero =>
    intro check known hk hcard
    have := Finset.card_le_card hk
    omega
  | succ n ih =>
    intro check known hk hcard
    rw [dependentsLoop]
    by_cases hexit : dependentsStep m check known \ known = ∅ ∨ transitive = false
    · exact ⟨dependentsStep m check known, by rw [if_pos hexit]⟩
    · rw [if_neg hexit]
      have hne : dependentsStep m check known \ known ≠ ∅ := by
        intro h; exact hexit (Or.inl h)
      obtain ⟨z, hz⟩ := Finset.nonempty_iff_ne_empty.mpr hne
      have hzd := Finset.mem_sdiff.mp hz
      have hksub : known ⊆ dependentsStep m check known :=
        Finset.subset_union_left
      have hlt : known.card < (dependentsStep m check known).card :=
        Finset.card_lt_card ((Finset.ssubset_iff_of_subset hksub).mpr
          ⟨z, hzd.1, hzd.2⟩)
      exact ih (dependentsStep m check known \ known) (dependentsStep m check known)
        (dependentsStep_subset_values hk) (by omega)

/-- `x` has at least one dependent-chain of length ≥ 1 from some root:
reachability along reverse edges. -/
def ReachDep (m : List (α × List α)) (roots : Finset α) (x : α) : Prop :=
  ∃ r ∈ roots, Relation.TransGen (hasEdge m) r x

theorem dependentsStep_sound {m : List (α × List α)} {roots check known : Finset α}
    (hknown : ∀ x ∈ known, ReachDep m roots x)
    (hcheck : ∀ x ∈ check, x ∈ roots ∨ ReachDep m roots x) :
    ∀ x ∈ dependentsStep m check known, ReachDep m roots x := by
  intro x hx
  rcases Finset.mem_union.mp hx with hx | hx
  · exact hknown x hx
  · obtain ⟨tt, htt, hmem⟩ := Finset.mem_biUnion.mp hx
    have hedge : hasEdge m tt x := List.mem_toFinset.mp hmem
    rcases hcheck tt htt with hroot | ⟨r, hr, hTG⟩
    · exact ⟨tt, hroot, Relation.TransGen.single hedge⟩
    · exact ⟨r, hr, hTG.tail hedge⟩

/-- Fixed-point characterisation of the transitive loop: under the
round invariants, a terminating run returns exactly the set of
addresses reachable from the roots by one or more reverse edges. -/
theorem dependentsLoop_true_spec (m : List (α × List α)) (roots : Finset α) :
    ∀ (fuel : Nat) (check known d : Finset α),
      dependentsLoop m true fuel check known = some d →
      (∀ x ∈ known, ReachDep m roots x) →
      (∀ x ∈ check, x ∈ roots ∨ ReachDep m roots x) →
      (∀ x, x ∈ roots ∨ x ∈ known → x ∈ check ∨ ∀ y ∈ getAdj m x, y ∈ known) →
      ∀ x, x ∈ d ↔ ReachDep m roots x := by
  intro fuel
  induction fuel with
  | zero => intro check known d h; simp [dependentsLoop] at h
  | succ n ih =>
    intro check known d h hknown hcheck hclosed
    rw [dependentsLoop] at h
    by_cases hexit : dependentsStep m check known \ known = ∅ ∨ (true : Bool) = false
    · rw [if_pos hexit] at h
      obtain rfl : dependentsStep m check known = d := by simpa using h
      have hDsub : dependentsStep m check known ⊆ known := by
        rcases hexit with hexit | hexit
        · exact Finset.sdiff_eq_empty_iff_subset.mp hexit
        · simp at hexit
      have hDK : dependentsStep m check known = known :=
        Finset.Subset.antisymm hDsub Finset.subset_union_left
      intro x
      constructor
      · exact fun hx => dependentsStep_sound hknown hcheck x hx
      · rintro ⟨r, hr, hTG⟩
        have hstep : ∀ z, z ∈ roots ∨ z ∈ dependentsStep m check known →
            ∀ y ∈ getAdj m z, y ∈ dependentsStep m check known := by
          intro z hz y hy
          have hz' : z ∈ roots ∨ z ∈ known := by rw [← hDK]; exact hz
          rcases hclosed z hz' with hzc | hzk
          · exact Finset.mem_union_right _
              (Finset.mem_biUnion.mpr ⟨z, hzc, List.mem_toFinset.mpr hy⟩)
          · rw [hDK]; exact hzk y hy
        induction hTG with
        | single hedge => exact hstep r (Or.inl hr) _ hedge
        | tail hTG hedge ihx =>
          exact hstep _ (Or.inr ihx) _ hedge
    · rw [if_neg hexit] at h
      have hDreach := dependentsStep_sound hknown hcheck
      refine ih (dependentsStep m check known \ known)
        (dependentsStep m check known) d h hDreach ?_ ?_
      · intro x hx
        exact Or.inr (hDreach x (Finset.mem_sdiff.mp hx).1)
      · intro x hx
        by_cases hxk : x ∈ known
        · rcases hclosed x (Or.inr hxk) with hxc | hxe
          · right
            intro y hy
            exact Finset.mem_union_right _
              (Finset.mem_biUnion.mpr ⟨x, hxc, List.mem_toFinset.mpr hy⟩)
          · right
            intro y hy
            exact Finset.mem_union_left _ (hxe y hy)
        · rcases hx with hx | hx
          · rcases hclosed x (Or.inl hx) with hxc | hxe
            · right
              intro y hy
              exact Finset.mem_union_right _
                (Finset.mem_biUnion.mpr ⟨x, hxc, List.mem_toFinset.mpr hy⟩)
            · right
              intro y hy
              exact Finset.mem_union_left _ (hxe y hy)
          · exact Or.inl (Finset.mem_sdiff.mpr ⟨hx, hxk⟩)

/-- C2: with `transitive=true` and `include_roots=false`,
`find_dependents` returns exactly the addresses reachable from the
roots by one or more reverse-dependency edges, minus the roots. -/
theorem find_dependents_transitive_spec (m : List (α × List α))
    (roots : Finset α) (x : α) :
    x ∈ find_dependents m roots true false ↔
      (∃ r ∈ roots, Relation.TransGen (hasEdge m) r x) ∧ x ∉ roots := by
  obtain ⟨d, hd⟩ := dependentsLoop_some m true (depFuel m) roots ∅
    (Finset.empty_subset _) (by simp [depFuel])
  have hchar := dependentsLoop_true_spec m roots (depFuel m) roots ∅ d hd
    (by simp) (fun x hx => Or.inl hx)
    (by
      intro x hx
      rcases hx with hx | hx
      · exact Or.inl hx
      · exact absurd hx (Finset.not_mem_empty x))
  rw [find_dependents]
  simp only [Bool.false_eq_true, if_false, hd, Option.getD_some]
  rw [Finset.mem_sdiff]
  exact and_congr_left (fun _ => hchar x)

/-- C4: for any transitivity flag, the `include_roots=true` result is
exactly the `include_roots=false` result united with the roots, and
the `include_roots=false` result is disjoint from the roots. -/
theorem find_dependents_include_roots_toggle (m : List (α × List α))
    (roots : Finset α) (transitive : Bool) :
    find_dependents m roots transitive true =
        find_dependents m roots transitive false ∪ roots ∧
      find_dependents m roots transitive false ∩ roots = ∅ := by
  rw [find_dependents, find_dependents]
  simp only [if_pos, Bool.false_eq_true, if_false]
  constructor
  · exact (Finset.sdiff_union_self_eq_union).symm
  · ext y
    simp only [Finset.mem_inter, Finset.mem_sdiff, Finset.not_mem_empty, iff_false]
    rintro ⟨⟨-, h⟩, h'⟩
    exact h h'

/-! ### Claim C8: the `paths` goal rule fails fast on missing options

paths.py lines 153-166: the goal rule reads `--from` and `--to` and
raises `ValueError` for a missing one before constructing the
`SpecsParser`, resolving any target or enumerating any path.  The
whole downstream computation (spec parsing, target resolution, path
enumeration and output assembly) is abstracted as an opaque function
`compute`, so that independence of the result from `compute` expresses
that no graph computation influences — or is needed for — the error. -/

def pathsGoal {R : Type} (path_from path_to : Option String)
    (compute : String → String → R) : Except String R :=
  match path_from with
  | none => Except.error "Must set --from"
  | some f =>
    match path_to with
    | none => Except.error "Must set --to"
    | some t => Except.ok (compute f t)

/-- C8: with `--from` or `--to` missing, the `paths` goal errors out,
and the outcome is the same whatever the graph computation would have
produced — none of it is consulted, so there are no partial results. -/
theorem paths_goal_missing_option_errors {R : Type}
    (path_from path_to : Option String) (compute : String → String → R)
    (h : path_from = none ∨ path_to = none) :
    (∃ msg, pathsGoal path_from path_to compute = Except.error msg) ∧
      ∀ compute' : String → String → R,
        pathsGoal path_from path_to compute' =
          pathsGoal path_from path_to compute := by
  rcases h with rfl | rfl
  · exact ⟨⟨"Must set --from", rfl⟩, fun _ => rfl⟩
  · cases path_from with
    | none => exact ⟨⟨"Must set --from", rfl⟩, fun _ => rfl⟩
    | some f => exact ⟨⟨"Must set --to", rfl⟩, fun _ => rfl⟩

/-- Witness for C8: `--from` missing with a concrete computation. -/
theorem paths_goal_missing_option_errors_witness :
    ((none : Option String) = none ∨ (some "x" : Option String) = none) ∧
      (∃ msg, pathsGoal none (some "x") (fun _ _ => (0 : Nat)) =
        Except.error msg) ∧
      ∀ compute' : String → String → Nat,
        pathsGoal none (some "x") compute' =
          pathsGoal none (some "x") (fun _ _ => (0 : Nat)) :=
  ⟨Or.inl rfl,
    (paths_goal_missing_option_errors none (some "x") (fun _ _ => (0 : Nat))
      (Or.inl rfl)).1,
    (paths_goal_missing_option_errors none (some "x") (fun _ _ => (0 : Nat))
      (Or.inl rfl)).2⟩

end PantsGraph
